import Mathlib

/-!
Verification of the `detect-secrets` audit/compare core.

Shallow embedding of two source files:

* `detect_secrets/audit/compare.py` — the baseline diff engine
  (`_compare_baselines`), the top-level `compare_baselines` error handling,
  and the per-event review step of `_display_difference_to_user`;
* `detect_secrets/util/inject.py` — `call_function_with_arguments`,
  `make_function_self_aware`, `get_injectable_variables`.

Python machine-level details are modelled as follows: a `PotentialSecret`
carries `filename`, `line_number` (a `Nat`; `0` encodes a missing/falsy line
number, matching the Python check `if not secret.line_number`) and
`secret_hash`.  A `SecretsCollection` enters the engine only through
`[secret for _, secret in baseline]`, so collections are modelled as the
resulting list of secrets.  The generator `_compare_baselines` is consumed via
`list(...)`, so it is modelled as returning `Except CompareError (List
ChangeEvent)`: on `NoLineNumberError` no events are delivered.
-/

namespace DetectSecrets

/-- One detected secret occurrence, as used by `audit/compare.py`:
`filename`, `line_number` (0 = absent, the Python-falsy value) and
`secret_hash`. -/
structure PotentialSecret where
  filename : String
  line_number : Nat
  secret_hash : String
deriving DecidableEq, Repr

instance : Inhabited PotentialSecret := ⟨⟨"", 0, ""⟩⟩

/-- The tuple `(filename, left_secret, right_secret)` yielded by
`_compare_baselines`: `left_secret = None` means a newly added secret,
`right_secret = None` a deleted one. -/
structure ChangeEvent where
  filename : String
  left_secret : Option PotentialSecret
  right_secret : Option PotentialSecret
deriving DecidableEq, Repr

/-- The `NoLineNumberError` exception raised inside `_compare_baselines`. -/
inductive CompareError where
  | noLineNumber
deriving DecidableEq, Repr

/-- Event yielded on `except LeftSecret`: `(left_secret.filename, left_secret, None)`. -/
def leftEvent (s : PotentialSecret) : ChangeEvent := ⟨s.filename, some s, none⟩

/-- Event yielded on `except RightSecret`: `(right_secret.filename, None, right_secret)`. -/
def rightEvent (s : PotentialSecret) : ChangeEvent := ⟨s.filename, none, some s⟩

/-- The rule-5 cursor advance of `_compare_baselines` (lines 140-152):
`while old_hash == secrets[index].secret_hash: index += 1`, stopping on a
differing hash or on `IndexError`.  Returns the new index. -/
def skipHashRun (secrets : List PotentialSecret) (oldHash : String) (i : Nat) : Nat :=
  i + ((secrets.drop i).takeWhile (fun s => s.secret_hash = oldHash)).length

/-- The `while left_index < len(left_secrets) or right_index < len(right_secrets)`
loop of `_compare_baselines` (lines 91-160), with cursors `li`, `ri`.
The extra `fuel` argument makes the recursion structural; `none` means the
fuel ran out (`compareGo_total` below shows enough fuel always exists).
Matching on `ls[li]?` and `rs[ri]?` is exactly the loop condition: the loop
exits iff both lookups `IndexError`.  An `Except.error` models
`NoLineNumberError` propagating out of the generator, discarding earlier
yields (the sole caller materializes with `list(...)`). -/
def compareGo (ls rs : List PotentialSecret) :
    Nat → Nat → Nat → Option (Except CompareError (List ChangeEvent))
  | 0, _, _ => none
  | fuel + 1, li, ri =>
    match ls[li]?, rs[ri]? with
    | none, none => some (.ok [])
    | some l, none =>
      -- right side exhausted: `exception = LeftSecret`; the left line-number
      -- check (line 99) still runs first.
      if l.line_number = 0 then some (.error .noLineNumber)
      else (compareGo ls rs fuel (li + 1) ri).map (Except.map (leftEvent l :: ·))
    | none, some r =>
      -- left side exhausted: `exception = RightSecret`; the right line-number
      -- check (line 106) still runs.
      if r.line_number = 0 then some (.error .noLineNumber)
      else (compareGo ls rs fuel li (ri + 1)).map (Except.map (rightEvent r :: ·))
    | some l, some r =>
      if l.line_number = 0 then some (.error .noLineNumber)
      else if r.line_number = 0 then some (.error .noLineNumber)
      else if l.filename.data < r.filename.data then
        (compareGo ls rs fuel (li + 1) ri).map (Except.map (leftEvent l :: ·))
      else if r.filename.data < l.filename.data then
        (compareGo ls rs fuel li (ri + 1)).map (Except.map (rightEvent r :: ·))
      else if l.line_number < r.line_number then
        (compareGo ls rs fuel (li + 1) ri).map (Except.map (leftEvent l :: ·))
      else if r.line_number < l.line_number then
        (compareGo ls rs fuel li (ri + 1)).map (Except.map (rightEvent r :: ·))
      else if l.secret_hash.data < r.secret_hash.data then
        (compareGo ls rs fuel (li + 1) ri).map (Except.map (leftEvent l :: ·))
      else if r.secret_hash.data < l.secret_hash.data then
        (compareGo ls rs fuel li (ri + 1)).map (Except.map (rightEvent r :: ·))
      else
        -- rule 5: same filename, line number and hash — no event; advance both
        -- cursors past every consecutive record sharing that hash.
        compareGo ls rs fuel (skipHashRun ls l.secret_hash li) (skipHashRun rs r.secret_hash ri)

/-- Model of `_compare_baselines(old_baseline, new_baseline)`, materialized by
`list(...)` at its only call site: either the full event list, or the
`NoLineNumberError` (in which case no events are delivered).  The fuel
`old.length + new.length + 1` strictly exceeds the loop's step count
(`compareGo_total`). -/
def compare_baselines_diff (old new : List PotentialSecret) :
    Except CompareError (List ChangeEvent) :=
  (compareGo old new (old.length + new.length + 1) 0 0).getD (.ok [])

/-- Outcome of `compare_baselines` (lines 54-57) on already-loaded baselines:
the `try/except NoLineNumberError` around `_display_difference_to_user`, which
materializes the diff before any review happens (line 175).  On error a single
top-level message is printed and no events reach the reviewer. -/
inductive CompareOutcome where
  | errorReported
  | reviewed (events : List ChangeEvent)
deriving DecidableEq, Repr

/-- Model of the `compare_baselines` error handling (lines 54-57): a
`NoLineNumberError` escaping the materialization is caught once at top level
and printed; otherwise the event list is handed to the interactive review
loop. -/
def compare_baselines_outcome (old new : List PotentialSecret) : CompareOutcome :=
  match compare_baselines_diff old new with
  | .error _ => .errorReported
  | .ok evs => .reviewed evs

instance {ε α : Type} [DecidableEq ε] [DecidableEq α] : DecidableEq (Except ε α) := fun x y =>
  match x, y with
  | .ok a, .ok b =>
    if h : a = b then .isTrue (by rw [h]) else .isFalse (by simp [h])
  | .error a, .error b =>
    if h : a = b then .isTrue (by rw [h]) else .isFalse (by simp [h])
  | .ok _, .error _ => .isFalse (by simp)
  | .error _, .ok _ => .isFalse (by simp)

/-! ## The `(filename, line_number, secret_hash)` ordering

Python's `<` on `str` is code-point lexicographic, which is `List Char`
lexicographic order on `String.data`; that is the comparison written in the
model above and in the key order below. -/
/-- Strict lexicographic order on the `(filename, line_number, secret_hash)`
key, the three-level tie-break of `_compare_baselines` and the sort key of the
baseline precondition (module docstring assumption 1). -/
def keyLt (a b : PotentialSecret) : Prop :=
  a.filename.data < b.filename.data ∨
    (a.filename = b.filename ∧
      (a.line_number < b.line_number ∨
        (a.line_number = b.line_number ∧ a.secret_hash.data < b.secret_hash.data)))

/-- Non-strict version of `keyLt`: strictly smaller key or equal key. -/
def keyLe (a b : PotentialSecret) : Prop :=
  keyLt a b ∨
    (a.filename = b.filename ∧ a.line_number = b.line_number ∧ a.secret_hash = b.secret_hash)

instance (a b : PotentialSecret) : Decidable (keyLt a b) := by
  unfold keyLt; infer_instance

instance (a b : PotentialSecret) : Decidable (keyLe a b) := by
  unfold keyLe keyLt; infer_instance

/-- The ordering precondition on a baseline (module docstring assumption 1):
records sorted by `(filename, line_number, hash)`. -/
def SortedByKey (l : List PotentialSecret) : Prop := l.Pairwise keyLe

instance (l : List PotentialSecret) : Decidable (SortedByKey l) :=
  inferInstanceAs (Decidable (l.Pairwise keyLe))

/-- Every record of the collection has a resolvable (nonzero) line number. -/
def AllLinesPresent (l : List PotentialSecret) : Prop := ∀ s ∈ l, s.line_number ≠ 0

instance (l : List PotentialSecret) : Decidable (AllLinesPresent l) :=
  inferInstanceAs (Decidable (∀ s ∈ l, s.line_number ≠ 0))

/-- The record a change event displays: the left one if present, otherwise the
right one (`secret = left_secret if left_secret else right_secret`). -/
def eventSecret (e : ChangeEvent) : PotentialSecret :=
  match e.left_secret with
  | some s => s
  | none => e.right_secret.getD default


/-- No two consecutive records of the collection share a `secret_hash`; under
this hypothesis a rule-5 advance consumes exactly the one record under the
cursor, so every record is examined at a cursor head. -/
def NoConsecDupHash (l : List PotentialSecret) : Prop :=
  l.Chain' (fun a b => a.secret_hash ≠ b.secret_hash)

/-- Swapping the two record slots of an event.  The `filename` component is
the present record's filename on either side, so it is unchanged. -/
def swapEvent (e : ChangeEvent) : ChangeEvent := ⟨e.filename, e.right_secret, e.left_secret⟩

/-! ## Instrumented trace of the merge: which positions are emitted, which are
consumed by a rule-5 match -/
/-- One consumption step of the merge: an emission from a cursor position, or
a rule-5 match group advancing the left cursor from `lfrom` to `lto` and the
right cursor from `rfrom` to `rto` while emitting nothing. -/
inductive DiffStep where
  | emitLeft (i : Nat)
  | emitRight (i : Nat)
  | matchGroup (lfrom lto rfrom rto : Nat)
deriving DecidableEq, Repr

/-- Instrumented twin of `compareGo`: identical control flow, but it records
which cursor positions each loop iteration consumed instead of the events.
`traceGo_renders` proves that `compareGo` is exactly its event rendering. -/
def compareTraceGo (ls rs : List PotentialSecret) :
    Nat → Nat → Nat → Option (Except CompareError (List DiffStep))
  | 0, _, _ => none
  | fuel + 1, li, ri =>
    match ls[li]?, rs[ri]? with
    | none, none => some (.ok [])
    | some l, none =>
      if l.line_number = 0 then some (.error .noLineNumber)
      else (compareTraceGo ls rs fuel (li + 1) ri).map (Except.map (.emitLeft li :: ·))
    | none, some r =>
      if r.line_number = 0 then some (.error .noLineNumber)
      else (compareTraceGo ls rs fuel li (ri + 1)).map (Except.map (.emitRight ri :: ·))
    | some l, some r =>
      if l.line_number = 0 then some (.error .noLineNumber)
      else if r.line_number = 0 then some (.error .noLineNumber)
      else if l.filename.data < r.filename.data then
        (compareTraceGo ls rs fuel (li + 1) ri).map (Except.map (.emitLeft li :: ·))
      else if r.filename.data < l.filename.data then
        (compareTraceGo ls rs fuel li (ri + 1)).map (Except.map (.emitRight ri :: ·))
      else if l.line_number < r.line_number then
        (compareTraceGo ls rs fuel (li + 1) ri).map (Except.map (.emitLeft li :: ·))
      else if r.line_number < l.line_number then
        (compareTraceGo ls rs fuel li (ri + 1)).map (Except.map (.emitRight ri :: ·))
      else if l.secret_hash.data < r.secret_hash.data then
        (compareTraceGo ls rs fuel (li + 1) ri).map (Except.map (.emitLeft li :: ·))
      else if r.secret_hash.data < l.secret_hash.data then
        (compareTraceGo ls rs fuel li (ri + 1)).map (Except.map (.emitRight ri :: ·))
      else
        (compareTraceGo ls rs fuel (skipHashRun ls l.secret_hash li)
            (skipHashRun rs r.secret_hash ri)).map
          (Except.map (.matchGroup li (skipHashRun ls l.secret_hash li) ri
            (skipHashRun rs r.secret_hash ri) :: ·))

/-- Events produced by one trace step: one event for an emission (the record
at the recorded position), none for a rule-5 match group. -/
def renderStep (ls rs : List PotentialSecret) : DiffStep → List ChangeEvent
  | .emitLeft i => (ls[i]?.map leftEvent).toList
  | .emitRight i => (rs[i]?.map rightEvent).toList
  | .matchGroup _ _ _ _ => []

/-- Left-collection positions consumed by one trace step. -/
def stepLefts : DiffStep → List Nat
  | .emitLeft i => [i]
  | .emitRight _ => []
  | .matchGroup lfrom lto _ _ => List.range' lfrom (lto - lfrom)

/-- Right-collection positions consumed by one trace step. -/
def stepRights : DiffStep → List Nat
  | .emitLeft _ => []
  | .emitRight i => [i]
  | .matchGroup _ _ rfrom rto => List.range' rfrom (rto - rfrom)

/-- The consumption trace of a whole `_compare_baselines` run. -/
def compare_baselines_trace (old new : List PotentialSecret) :
    Except CompareError (List DiffStep) :=
  (compareTraceGo old new (old.length + new.length + 1) 0 0).getD (.ok [])

/-! ## The per-event review step of `_display_difference_to_user`
(compare.py lines 176-228)

External collaborators appear as parameters: the outcome of
`get_raw_secret_from_file` (whose failure is
`SecretNotFoundOnSpecifiedLineError`), the `get_code_snippet` result, the
iterator state (`can_step_back()`, `index`, collection length), and the
reviewer's `io.get_user_decision` answer. -/
/-- Model of `io.InputOptions` as far as the loop inspects it
(lines 224-228): `QUIT`, `BACK`, anything else advances. -/
inductive UserDecision where
  | quit
  | back
  | other
deriving DecidableEq, Repr

/-- What the loop does with the collected decision: break out (quit), request
a step back on the next iteration, or advance. -/
inductive SessionAction where
  | quitSession
  | stepBack
  | advance
deriving DecidableEq, Repr

/-- The arguments passed to `io.get_user_decision`. -/
structure PromptArgs where
  can_step_back : Bool
  prompt_secret_decision : Bool
deriving DecidableEq, Repr

/-- The `SecretContext` handed to the presentation layer.  The normal path
(lines 186-203) carries the resolved secret value, the ADDED/REMOVED status
header and a code snippet; the failure path (lines 210-217) carries the error
instead of header and snippet. -/
inductive ShownContext where
  | normal (current_index num_total_secrets : Nat) (secret : PotentialSecret)
      (secret_value : String) (statusRemoved : Bool) (snippet : List String)
  | errorContext (current_index num_total_secrets : Nat) (secret : PotentialSecret)
deriving DecidableEq, Repr

/-- What one iteration of the review loop did: what it displayed, how it asked
for a decision, and the resulting cursor action. -/
structure StepResult where
  shown : ShownContext
  prompt : PromptArgs
  action : SessionAction
deriving DecidableEq, Repr

/-- One iteration of the review loop of `_display_difference_to_user`:
pick the present record (`left if left else right`), try to resolve its raw
value (`.error ()` models `SecretNotFoundOnSpecifiedLineError`), display the
normal or the error context, collect a decision with
`prompt_secret_decision=False` and the iterator's `can_step_back()`, and map
the decision to a cursor action. -/
def displayStep (ev : ChangeEvent) (index total : Nat) (canStepBack : Bool)
    (resolution : Except Unit String) (snippet : List String)
    (decision : UserDecision) : StepResult :=
  let secret := eventSecret ev
  let shown :=
    match resolution with
    | .ok value =>
      ShownContext.normal (index + 1) total secret value ev.right_secret.isNone snippet
    | .error _ => ShownContext.errorContext (index + 1) total secret
  let action :=
    match decision with
    | .quit => SessionAction.quitSession
    | .back => SessionAction.stepBack
    | .other => SessionAction.advance
  ⟨shown, ⟨canStepBack, false⟩, action⟩

/-! ## `util/inject.py` -/
/-- A value in the injection pool: a plain datum or an object instance (such
as a method's bound `self`). -/
inductive PyValue where
  | str (s : String)
  | inst (id : Nat)
deriving DecidableEq, Repr

/-- The fields of `func.__code__` read by `get_injectable_variables`. -/
structure CodeObject where
  co_varnames : List String
  co_argcount : Nat
  co_kwonlyargcount : Nat
deriving DecidableEq, Repr

/-- The two attributes `make_function_self_aware` may attach to a function
object; `none` models an absent attribute (`hasattr` false, `AttributeError`
on access). -/
structure FuncAttrs where
  injectable_variables : Option (List String)
  path : Option String
deriving DecidableEq, Repr

/-- A Python function object: `__name__`, `__code__`, and its mutable
attributes. -/
structure PyFunction where
  name : String
  code : CodeObject
  attrs : FuncAttrs
deriving DecidableEq, Repr

/-- A bound method: the rendering of `__self__.__class__` (used by the `path`
f-string), `__self__` itself, and the class function
`getattr(klass, func.__name__)` — the object that the method's `__code__` and
attribute lookups proxy to, and the one `make_function_self_aware`
mutates. -/
structure BoundMethod where
  klass : String
  selfVal : PyValue
  func : PyFunction
deriving DecidableEq, Repr

/-- A callable as `call_function_with_arguments` distinguishes them:
`inspect.ismethod` is true exactly for `method`. -/
inductive PyCallable where
  | function (f : PyFunction)
  | method (m : BoundMethod)
deriving DecidableEq, Repr

/-- Lookup of `func.__code__`; a bound method proxies to its class function. -/
def PyCallable.codeOf : PyCallable → CodeObject
  | .function f => f.code
  | .method m => m.func.code

/-- Lookup of the `injectable_variables` attribute; a bound method proxies to
its class function. -/
def PyCallable.injectableOf : PyCallable → Option (List String)
  | .function f => f.attrs.injectable_variables
  | .method m => m.func.attrs.injectable_variables

/-- Model of `inspect.ismethod`. -/
def PyCallable.isMethod : PyCallable → Bool
  | .function _ => false
  | .method _ => true

/-- Model of `get_injectable_variables(func)` (lines 64-80): the declared
positional and keyword-only parameter names, which are
`func.__code__.co_varnames[:co_argcount + co_kwonlyargcount]`. -/
def get_injectable_variables (func : PyCallable) : List String :=
  (PyCallable.codeOf func).co_varnames.take
    ((PyCallable.codeOf func).co_argcount + (PyCallable.codeOf func).co_kwonlyargcount)

/-- Model of the check `hasattr(func, ...)` at line 46, looking up the
`injectable_variables` attribute. -/
def hasInjectableAttr (func : PyCallable) : Bool :=
  (PyCallable.injectableOf func).isSome

/-- Modelled from the spec: `isinstance(func, SelfAwareCallable)` (line 19).
`SelfAwareCallable` is defined in `custom_types.py`, which is not among the
sources; per the spec (§4.3), a self-aware callable is one that carries its
own injectable-variables metadata on itself. -/
def isSelfAware (func : PyCallable) : Bool :=
  hasInjectableAttr func

/-- Model of `make_function_self_aware(func)` (lines 41-61).  An already
self-aware callable is returned unchanged (a bound method stays a bound
method).  A bound method yields the underlying class function with
`injectable_variables` and `path` assigned — an in-place mutation of that
shared function object.  A plain function gets only `path` assigned: the
else branch of the source (lines 57-59) never sets `injectable_variables`
(see C2). -/
def make_function_self_aware (func : PyCallable) : PyCallable :=
  if hasInjectableAttr func then func
  else
    match func with
    | .method m =>
      .function { m.func with attrs :=
        { injectable_variables := some (get_injectable_variables (.method m)),
          path := some (m.klass ++ "." ++ m.func.name) } }
    | .function f =>
      .function { f with attrs := { f.attrs with path := some f.name } }

/-- The state of the underlying function object of `func` after
`make_function_self_aware` ran: for a bound method this is the class function
(aliased by every other method of the class), for a plain function the
function itself. -/
def classFunctionAfter (func : PyCallable) : PyFunction :=
  match make_function_self_aware func with
  | .function f => f
  | .method m => m.func

/-- The exceptions escaping `call_function_with_arguments` in the model:
`function.injectable_variables` missing at line 35, or
`get_injectable_variables(func)[0]` on an empty tuple at line 30. -/
inductive PyError where
  | attributeError
  | indexError
deriving DecidableEq, Repr

/-- The invocation `function(**values)` performed at line 38: which callable
object is invoked and the keyword arguments passed to it. -/
structure CallResult where
  invoked : PyCallable
  values : List (String × PyValue)
deriving DecidableEq, Repr

/-- Python dict assignment `kwargs[k] = v`: overwrite the entry if the key is
present, else append it. -/
def dictInsert (kwargs : List (String × PyValue)) (k : String) (v : PyValue) :
    List (String × PyValue) :=
  if kwargs.any (fun kv => kv.1 = k) then
    kwargs.map (fun kv => if kv.1 = k then (k, v) else kv)
  else kwargs ++ [(k, v)]

/-- Model of `call_function_with_arguments(func, **kwargs)` (lines 11-38):
make the callable self-aware, inject `func.__self__` under the name of the
first declared parameter when `func` is a bound method whose self-aware form
is not a method, then call with the pool entries whose names are declared
(`variables_to_inject & function.injectable_variables`). -/
def call_function_with_arguments (func : PyCallable)
    (kwargs : List (String × PyValue)) : Except PyError CallResult :=
  let function := if isSelfAware func then func else make_function_self_aware func
  let kwargsAfterSelf : Except PyError (List (String × PyValue)) :=
    match func, PyCallable.isMethod function with
    | .method m, false =>
      match get_injectable_variables (.method m) with
      | [] => .error .indexError
      | p0 :: _ => .ok (dictInsert kwargs p0 m.selfVal)
    | _, _ => .ok kwargs
  match kwargsAfterSelf with
  | .error e => .error e
  | .ok kw =>
    match PyCallable.injectableOf function with
    | none => .error .attributeError
    | some ivs => .ok ⟨function, kw.filter (fun kv => ivs.contains kv.1)⟩

theorem eq_of_data_eq {a b : String} (h : a.data = b.data) : a = b := by
  cases a; cases b; exact congrArg String.mk h

theorem data_eq_of_not_lt {a b : String} (h1 : ¬a.data < b.data) (h2 : ¬b.data < a.data) :
    a = b :=
  eq_of_data_eq (le_antisymm (not_lt.mp h2) (not_lt.mp h1))

theorem keyLe_refl (a : PotentialSecret) : keyLe a a := Or.inr ⟨rfl, rfl, rfl⟩

theorem keyLt_trans {a b c : PotentialSecret} (h1 : keyLt a b) (h2 : keyLt b c) : keyLt a c := by
  rcases h1 with h1 | ⟨e1, h1⟩ <;> rcases h2 with h2 | ⟨e2, h2⟩
  · exact Or.inl (h1.trans h2)
  · exact Or.inl (by rw [← e2]; exact h1)
  · exact Or.inl (by rw [e1]; exact h2)
  · refine Or.inr ⟨e1.trans e2, ?_⟩
    rcases h1 with h1 | ⟨f1, h1⟩ <;> rcases h2 with h2 | ⟨f2, h2⟩
    · exact Or.inl (h1.trans h2)
    · exact Or.inl (by rw [← f2]; exact h1)
    · exact Or.inl (by rw [f1]; exact h2)
    · exact Or.inr ⟨f1.trans f2, h1.trans h2⟩

theorem keyLt_of_keyLt_of_eq {a b c : PotentialSecret} (h1 : keyLt a b)
    (h2 : b.filename = c.filename) (h3 : b.line_number = c.line_number)
    (h4 : b.secret_hash = c.secret_hash) : keyLt a c := by
  rcases h1 with h1 | ⟨e1, h1⟩
  · exact Or.inl (by rw [← h2]; exact h1)
  · refine Or.inr ⟨e1.trans h2, ?_⟩
    rcases h1 with h1 | ⟨f1, h1⟩
    · exact Or.inl (by rw [← h3]; exact h1)
    · exact Or.inr ⟨f1.trans h3, by rw [← h4]; exact h1⟩

theorem keyLt_of_eq_of_keyLt {a b c : PotentialSecret} (h2 : a.filename = b.filename)
    (h3 : a.line_number = b.line_number) (h4 : a.secret_hash = b.secret_hash)
    (h1 : keyLt b c) : keyLt a c := by
  rcases h1 with h1 | ⟨e1, h1⟩
  · exact Or.inl (by rw [h2]; exact h1)
  · refine Or.inr ⟨h2.trans e1, ?_⟩
    rcases h1 with h1 | ⟨f1, h1⟩
    · exact Or.inl (by rw [h3]; exact h1)
    · exact Or.inr ⟨h3.trans f1, by rw [h4]; exact h1⟩

theorem keyLe_trans {a b c : PotentialSecret} (h1 : keyLe a b) (h2 : keyLe b c) : keyLe a c := by
  rcases h1 with h1 | ⟨e1, e2, e3⟩ <;> rcases h2 with h2 | ⟨f1, f2, f3⟩
  · exact Or.inl (keyLt_trans h1 h2)
  · exact Or.inl (keyLt_of_keyLt_of_eq h1 f1 f2 f3)
  · exact Or.inl (keyLt_of_eq_of_keyLt e1 e2 e3 h2)
  · exact Or.inr ⟨e1.trans f1, e2.trans f2, e3.trans f3⟩

theorem keyLt_keyLe_trans {a b c : PotentialSecret} (h1 : keyLt a b) (h2 : keyLe b c) :
    keyLt a c := by
  rcases h2 with h2 | ⟨f1, f2, f3⟩
  · exact keyLt_trans h1 h2
  · exact keyLt_of_keyLt_of_eq h1 f1 f2 f3

/-! ## Bounds on the rule-5 cursor advance -/
theorem le_skipHashRun (secrets : List PotentialSecret) (h : String) (i : Nat) :
    i ≤ skipHashRun secrets h i :=
  Nat.le_add_right _ _

theorem skipHashRun_le_length (secrets : List PotentialSecret) (h : String) {i : Nat}
    (hi : i ≤ secrets.length) : skipHashRun secrets h i ≤ secrets.length := by
  unfold skipHashRun
  have h1 : ((secrets.drop i).takeWhile (fun s => s.secret_hash = h)).length ≤
      (secrets.drop i).length :=
    (List.takeWhile_sublist _).length_le
  rw [List.length_drop] at h1
  omega

theorem lt_skipHashRun {secrets : List PotentialSecret} {i : Nat} {s : PotentialSecret}
    (hget : secrets[i]? = some s) : i < skipHashRun secrets s.secret_hash i := by
  obtain ⟨hi, hv⟩ := List.getElem?_eq_some_iff.mp hget
  unfold skipHashRun
  rw [List.drop_eq_getElem_cons hi, hv, List.takeWhile_cons_of_pos (by simp)]
  simp

theorem lt_length_of_getElem?_eq_some {l : List PotentialSecret} {i : Nat}
    {s : PotentialSecret} (h : l[i]? = some s) : i < l.length :=
  (List.getElem?_eq_some_iff.mp h).1

/-! ## Totality: the merge loop always terminates within the given fuel -/
theorem compareGo_total (ls rs : List PotentialSecret) :
    ∀ (fuel li ri : Nat), (ls.length - li) + (rs.length - ri) < fuel →
      ∃ x, compareGo ls rs fuel li ri = some x := by
  intro fuel
  induction fuel with
  | zero => intro li ri h; omega
  | succ fuel ih =>
    intro li ri h
    rcases hl : ls[li]? with _ | l <;> rcases hr : rs[ri]? with _ | r
    · exact ⟨.ok [], by simp [compareGo, hl, hr]⟩
    · have hrlen := lt_length_of_getElem?_eq_some hr
      by_cases h0 : r.line_number = 0
      · exact ⟨.error .noLineNumber, by simp [compareGo, hl, hr, h0]⟩
      · obtain ⟨x, hx⟩ := ih li (ri + 1) (by omega)
        exact ⟨Except.map (rightEvent r :: ·) x, by simp [compareGo, hl, hr, h0, hx]⟩
    · have hllen := lt_length_of_getElem?_eq_some hl
      by_cases h0 : l.line_number = 0
      · exact ⟨.error .noLineNumber, by simp [compareGo, hl, hr, h0]⟩
      · obtain ⟨x, hx⟩ := ih (li + 1) ri (by omega)
        exact ⟨Except.map (leftEvent l :: ·) x, by simp [compareGo, hl, hr, h0, hx]⟩
    · have hllen := lt_length_of_getElem?_eq_some hl
      have hrlen := lt_length_of_getElem?_eq_some hr
      by_cases hl0 : l.line_number = 0
      · exact ⟨.error .noLineNumber, by simp [compareGo, hl, hr, hl0]⟩
      by_cases hr0 : r.line_number = 0
      · exact ⟨.error .noLineNumber, by simp [compareGo, hl, hr, hl0, hr0]⟩
      by_cases c1 : l.filename.data < r.filename.data
      · obtain ⟨x, hx⟩ := ih (li + 1) ri (by omega)
        exact ⟨Except.map (leftEvent l :: ·) x, by simp [compareGo, hl, hr, hl0, hr0, c1, hx]⟩
      by_cases c2 : r.filename.data < l.filename.data
      · obtain ⟨x, hx⟩ := ih li (ri + 1) (by omega)
        exact ⟨Except.map (rightEvent r :: ·) x,
          by simp [compareGo, hl, hr, hl0, hr0, c1, c2, hx]⟩
      by_cases c3 : l.line_number < r.line_number
      · obtain ⟨x, hx⟩ := ih (li + 1) ri (by omega)
        exact ⟨Except.map (leftEvent l :: ·) x,
          by simp [compareGo, hl, hr, hl0, hr0, c1, c2, c3, hx]⟩
      by_cases c4 : r.line_number < l.line_number
      · obtain ⟨x, hx⟩ := ih li (ri + 1) (by omega)
        exact ⟨Except.map (rightEvent r :: ·) x,
          by simp [compareGo, hl, hr, hl0, hr0, c1, c2, c3, c4, hx]⟩
      by_cases c5 : l.secret_hash.data < r.secret_hash.data
      · obtain ⟨x, hx⟩ := ih (li + 1) ri (by omega)
        exact ⟨Except.map (leftEvent l :: ·) x,
          by simp [compareGo, hl, hr, hl0, hr0, c1, c2, c3, c4, c5, hx]⟩
      by_cases c6 : r.secret_hash.data < l.secret_hash.data
      · obtain ⟨x, hx⟩ := ih li (ri + 1) (by omega)
        exact ⟨Except.map (rightEvent r :: ·) x,
          by simp [compareGo, hl, hr, hl0, hr0, c1, c2, c3, c4, c5, c6, hx]⟩
      · have hsl := lt_skipHashRun hl
        have hsr := lt_skipHashRun hr
        have hsl2 := skipHashRun_le_length ls l.secret_hash (Nat.le_of_lt hllen)
        have hsr2 := skipHashRun_le_length rs r.secret_hash (Nat.le_of_lt hrlen)
        obtain ⟨x, hx⟩ :=
          ih (skipHashRun ls l.secret_hash li) (skipHashRun rs r.secret_hash ri) (by omega)
        exact ⟨x, by simp [compareGo, hl, hr, hl0, hr0, c1, c2, c3, c4, c5, c6, hx]⟩

/-- The fuelled loop runs to completion at the fuel that
`compare_baselines_diff` supplies: the default branch of its `getD` is never
taken. -/
theorem compareGo_eq_diff (old new : List PotentialSecret) :
    compareGo old new (old.length + new.length + 1) 0 0 =
      some (compare_baselines_diff old new) := by
  obtain ⟨x, hx⟩ := compareGo_total old new (old.length + new.length + 1) 0 0 (by omega)
  rw [compare_baselines_diff, hx]
  rfl

theorem keyLt_irrefl (a : PotentialSecret) : ¬keyLt a a := by
  unfold keyLt
  simp

theorem getElem?_none_mono {l : List PotentialSecret} {i j : Nat} (h : l[i]? = none)
    (hij : i ≤ j) : l[j]? = none := by
  rw [List.getElem?_eq_none_iff] at h ⊢
  omega

/-- One unfolding of the merge loop, classified into the six ways the body can
run: loop exit, `NoLineNumberError` from either cursor head, a `LeftSecret` or
`RightSecret` emission, or the rule-5 match that advances both cursors. -/
theorem compareGo_step {ls rs : List PotentialSecret} {fuel li ri : Nat}
    {x : Except CompareError (List ChangeEvent)}
    (h : compareGo ls rs (fuel + 1) li ri = some x) :
    (ls[li]? = none ∧ rs[ri]? = none ∧ x = .ok []) ∨
    (∃ l, ls[li]? = some l ∧ l.line_number = 0 ∧ x = .error .noLineNumber) ∨
    (∃ r, rs[ri]? = some r ∧ r.line_number = 0 ∧ x = .error .noLineNumber) ∨
    (∃ l y, ls[li]? = some l ∧ l.line_number ≠ 0 ∧
      (rs[ri]? = none ∨ ∃ r, rs[ri]? = some r ∧ r.line_number ≠ 0 ∧ keyLt l r) ∧
      compareGo ls rs fuel (li + 1) ri = some y ∧ x = Except.map (leftEvent l :: ·) y) ∨
    (∃ r y, rs[ri]? = some r ∧ r.line_number ≠ 0 ∧
      (ls[li]? = none ∨ ∃ l, ls[li]? = some l ∧ l.line_number ≠ 0 ∧ keyLt r l) ∧
      compareGo ls rs fuel li (ri + 1) = some y ∧ x = Except.map (rightEvent r :: ·) y) ∨
    (∃ l r, ls[li]? = some l ∧ rs[ri]? = some r ∧ l.line_number ≠ 0 ∧ r.line_number ≠ 0 ∧
      l.filename = r.filename ∧ l.line_number = r.line_number ∧
      l.secret_hash = r.secret_hash ∧
      compareGo ls rs fuel (skipHashRun ls l.secret_hash li)
        (skipHashRun rs r.secret_hash ri) = some x) := by
  rcases hl : ls[li]? with _ | l <;> rcases hr : rs[ri]? with _ | r <;>
    simp only [compareGo, hl, hr] at h
  · exact Or.inl ⟨rfl, rfl, (Option.some.inj h).symm⟩
  · by_cases hr0 : r.line_number = 0
    · rw [if_pos hr0] at h
      exact Or.inr (Or.inr (Or.inl ⟨r, rfl, hr0, (Option.some.inj h).symm⟩))
    · rw [if_neg hr0] at h
      rcases hy : compareGo ls rs fuel li (ri + 1) with _ | y
      · rw [hy] at h; simp at h
      · rw [hy] at h
        refine Or.inr (Or.inr (Or.inr (Or.inr (Or.inl
          ⟨r, y, rfl, hr0, Or.inl rfl, rfl, ?_⟩))))
        exact (Option.some.inj h).symm
  · by_cases hl0 : l.line_number = 0
    · rw [if_pos hl0] at h
      exact Or.inr (Or.inl ⟨l, rfl, hl0, (Option.some.inj h).symm⟩)
    · rw [if_neg hl0] at h
      rcases hy : compareGo ls rs fuel (li + 1) ri with _ | y
      · rw [hy] at h; simp at h
      · rw [hy] at h
        refine Or.inr (Or.inr (Or.inr (Or.inl ⟨l, y, rfl, hl0, Or.inl rfl, rfl, ?_⟩)))
        exact (Option.some.inj h).symm
  · by_cases hl0 : l.line_number = 0
    · rw [if_pos hl0] at h
      exact Or.inr (Or.inl ⟨l, rfl, hl0, (Option.some.inj h).symm⟩)
    rw [if_neg hl0] at h
    by_cases hr0 : r.line_number = 0
    · rw [if_pos hr0] at h
      exact Or.inr (Or.inr (Or.inl ⟨r, rfl, hr0, (Option.some.inj h).symm⟩))
    rw [if_neg hr0] at h
    by_cases c1 : l.filename.data < r.filename.data
    · rw [if_pos c1] at h
      rcases hy : compareGo ls rs fuel (li + 1) ri with _ | y
      · rw [hy] at h; simp at h
      · rw [hy] at h
        refine Or.inr (Or.inr (Or.inr (Or.inl ⟨l, y, rfl, hl0,
          Or.inr ⟨r, rfl, hr0, Or.inl c1⟩, rfl, ?_⟩)))
        exact (Option.some.inj h).symm
    rw [if_neg c1] at h
    by_cases c2 : r.filename.data < l.filename.data
    · rw [if_pos c2] at h
      rcases hy : compareGo ls rs fuel li (ri + 1) with _ | y
      · rw [hy] at h; simp at h
      · rw [hy] at h
        refine Or.inr (Or.inr (Or.inr (Or.inr (Or.inl ⟨r, y, rfl, hr0,
          Or.inr ⟨l, rfl, hl0, Or.inl c2⟩, rfl, ?_⟩))))
        exact (Option.some.inj h).symm
    rw [if_neg c2] at h
    have hfe : l.filename = r.filename := data_eq_of_not_lt c1 c2
    by_cases c3 : l.line_number < r.line_number
    · rw [if_pos c3] at h
      rcases hy : compareGo ls rs fuel (li + 1) ri with _ | y
      · rw [hy] at h; simp at h
      · rw [hy] at h
        refine Or.inr (Or.inr (Or.inr (Or.inl ⟨l, y, rfl, hl0,
          Or.inr ⟨r, rfl, hr0, Or.inr ⟨hfe, Or.inl c3⟩⟩, rfl, ?_⟩)))
        exact (Option.some.inj h).symm
    rw [if_neg c3] at h
    by_cases c4 : r.line_number < l.line_number
    · rw [if_pos c4] at h
      rcases hy : compareGo ls rs fuel li (ri + 1) with _ | y
      · rw [hy] at h; simp at h
      · rw [hy] at h
        refine Or.inr (Or.inr (Or.inr (Or.inr (Or.inl ⟨r, y, rfl, hr0,
          Or.inr ⟨l, rfl, hl0, Or.inr ⟨hfe.symm, Or.inl c4⟩⟩, rfl, ?_⟩))))
        exact (Option.some.inj h).symm
    rw [if_neg c4] at h
    have hle : l.line_number = r.line_number := by omega
    by_cases c5 : l.secret_hash.data < r.secret_hash.data
    · rw [if_pos c5] at h
      rcases hy : compareGo ls rs fuel (li + 1) ri with _ | y
      · rw [hy] at h; simp at h
      · rw [hy] at h
        refine Or.inr (Or.inr (Or.inr (Or.inl ⟨l, y, rfl, hl0,
          Or.inr ⟨r, rfl, hr0, Or.inr ⟨hfe, Or.inr ⟨hle, c5⟩⟩⟩, rfl, ?_⟩)))
        exact (Option.some.inj h).symm
    rw [if_neg c5] at h
    by_cases c6 : r.secret_hash.data < l.secret_hash.data
    · rw [if_pos c6] at h
      rcases hy : compareGo ls rs fuel li (ri + 1) with _ | y
      · rw [hy] at h; simp at h
      · rw [hy] at h
        refine Or.inr (Or.inr (Or.inr (Or.inr (Or.inl ⟨r, y, rfl, hr0,
          Or.inr ⟨l, rfl, hl0, Or.inr ⟨hfe.symm, Or.inr ⟨hle.symm, c6⟩⟩⟩, rfl, ?_⟩))))
        exact (Option.some.inj h).symm
    rw [if_neg c6] at h
    have hhe : l.secret_hash = r.secret_hash := data_eq_of_not_lt c5 c6
    exact Or.inr (Or.inr (Or.inr (Or.inr (Or.inr
      ⟨l, r, rfl, rfl, hl0, hr0, hfe, hle, hhe, h⟩))))

/-- Every emitted event is the `leftEvent` of a left record at or after the
left cursor, or the `rightEvent` of a right record at or after the right
cursor. -/
theorem compareGo_provenance (ls rs : List PotentialSecret) :
    ∀ (fuel li ri : Nat) (evs : List ChangeEvent),
      compareGo ls rs fuel li ri = some (.ok evs) →
      ∀ e ∈ evs,
        (∃ j s, li ≤ j ∧ ls[j]? = some s ∧ e = leftEvent s) ∨
        (∃ j s, ri ≤ j ∧ rs[j]? = some s ∧ e = rightEvent s) := by
  intro fuel
  induction fuel with
  | zero => intro li ri evs h; simp [compareGo] at h
  | succ fuel ih =>
    intro li ri evs h e he
    rcases compareGo_step h with
      ⟨_, _, hx⟩ | ⟨l, _, _, hx⟩ | ⟨r, _, _, hx⟩ |
      ⟨l, y, hsl, _, _, hrec, hx⟩ | ⟨r, y, hsr, _, _, hrec, hx⟩ |
      ⟨l, r, _, _, _, _, _, _, _, hrec⟩
    · rw [Except.ok.inj hx] at he
      simp at he
    · exact absurd hx (by simp)
    · exact absurd hx (by simp)
    · rcases y with err | evs0
      · exact absurd hx (by simp [Except.map])
      · have hevs : evs = leftEvent l :: evs0 := by simpa [Except.map] using hx
        subst hevs
        rcases List.mem_cons.mp he with rfl | he0
        · exact Or.inl ⟨li, l, Nat.le_refl _, hsl, rfl⟩
        · rcases ih (li + 1) ri evs0 hrec e he0 with ⟨j, s, hj, hs, hes⟩ | ⟨j, s, hj, hs, hes⟩
          · exact Or.inl ⟨j, s, by omega, hs, hes⟩
          · exact Or.inr ⟨j, s, hj, hs, hes⟩
    · rcases y with err | evs0
      · exact absurd hx (by simp [Except.map])
      · have hevs : evs = rightEvent r :: evs0 := by simpa [Except.map] using hx
        subst hevs
        rcases List.mem_cons.mp he with rfl | he0
        · exact Or.inr ⟨ri, r, Nat.le_refl _, hsr, rfl⟩
        · rcases ih li (ri + 1) evs0 hrec e he0 with ⟨j, s, hj, hs, hes⟩ | ⟨j, s, hj, hs, hes⟩
          · exact Or.inl ⟨j, s, hj, hs, hes⟩
          · exact Or.inr ⟨j, s, by omega, hs, hes⟩
    · rcases ih _ _ evs hrec e he with ⟨j, s, hj, hs, hes⟩ | ⟨j, s, hj, hs, hes⟩
      · exact Or.inl ⟨j, s, Nat.le_trans (le_skipHashRun ls l.secret_hash li) hj, hs, hes⟩
      · exact Or.inr ⟨j, s, Nat.le_trans (le_skipHashRun rs r.secret_hash ri) hj, hs, hes⟩

theorem eventSecret_leftEvent (s : PotentialSecret) : eventSecret (leftEvent s) = s := rfl


theorem eventSecret_rightEvent (s : PotentialSecret) : eventSecret (rightEvent s) = s := rfl

theorem sorted_rel_of_getElem? {l : List PotentialSecret} (h : SortedByKey l) {i j : Nat}
    {a b : PotentialSecret} (ha : l[i]? = some a) (hb : l[j]? = some b) (hij : i ≤ j) :
    keyLe a b := by
  obtain ⟨hi, hav⟩ := List.getElem?_eq_some_iff.mp ha
  obtain ⟨hj, hbv⟩ := List.getElem?_eq_some_iff.mp hb
  rcases Nat.eq_or_lt_of_le hij with rfl | hlt
  · rw [ha] at hb
    rw [Option.some.inj hb]
    exact keyLe_refl b
  · rw [← hav, ← hbv]
    exact List.pairwise_iff_getElem.mp h i j hi hj hlt

/-- With both inputs sorted by `(filename, line_number, secret_hash)`, the
emitted events are non-decreasing under the key of their present record. -/
theorem compareGo_sorted {ls rs : List PotentialSecret} (hA : SortedByKey ls)
    (hB : SortedByKey rs) :
    ∀ (fuel li ri : Nat) (evs : List ChangeEvent),
      compareGo ls rs fuel li ri = some (.ok evs) →
      evs.Pairwise (fun a b => keyLe (eventSecret a) (eventSecret b)) := by
  intro fuel
  induction fuel with
  | zero => intro li ri evs h; simp [compareGo] at h
  | succ fuel ih =>
    intro li ri evs h
    rcases compareGo_step h with
      ⟨_, _, hx⟩ | ⟨l, _, _, hx⟩ | ⟨r, _, _, hx⟩ |
      ⟨l, y, hsl, hl0, hreason, hrec, hx⟩ | ⟨r, y, hsr, hr0, hreason, hrec, hx⟩ |
      ⟨l, r, _, _, _, _, _, _, _, hrec⟩
    · rw [Except.ok.inj hx]
      exact List.Pairwise.nil
    · exact absurd hx (by simp)
    · exact absurd hx (by simp)
    · rcases y with err | evs0
      · exact absurd hx (by simp [Except.map])
      · have hevs : evs = leftEvent l :: evs0 := by simpa [Except.map] using hx
        subst hevs
        refine List.pairwise_cons.mpr ⟨?_, ih (li + 1) ri evs0 hrec⟩
        intro e' he'
        simp only [eventSecret_leftEvent]
        rcases compareGo_provenance ls rs fuel (li + 1) ri evs0 hrec e' he' with
          ⟨j, s, hj, hs, rfl⟩ | ⟨j, s, hj, hs, rfl⟩
        · simp only [eventSecret_leftEvent]
          exact sorted_rel_of_getElem? hA hsl hs (by omega)
        · simp only [eventSecret_rightEvent]
          rcases hreason with hnone | ⟨r, hsr, _, hlr⟩
          · rw [getElem?_none_mono hnone hj] at hs
            exact absurd hs (by simp)
          · exact Or.inl (keyLt_keyLe_trans hlr (sorted_rel_of_getElem? hB hsr hs hj))
    · rcases y with err | evs0
      · exact absurd hx (by simp [Except.map])
      · have hevs : evs = rightEvent r :: evs0 := by simpa [Except.map] using hx
        subst hevs
        refine List.pairwise_cons.mpr ⟨?_, ih li (ri + 1) evs0 hrec⟩
        intro e' he'
        simp only [eventSecret_rightEvent]
        rcases compareGo_provenance ls rs fuel li (ri + 1) evs0 hrec e' he' with
          ⟨j, s, hj, hs, rfl⟩ | ⟨j, s, hj, hs, rfl⟩
        · simp only [eventSecret_leftEvent]
          rcases hreason with hnone | ⟨l, hsl, _, hrl⟩
          · rw [getElem?_none_mono hnone hj] at hs
            exact absurd hs (by simp)
          · exact Or.inl (keyLt_keyLe_trans hrl (sorted_rel_of_getElem? hA hsl hs hj))
        · simp only [eventSecret_rightEvent]
          exact sorted_rel_of_getElem? hB hsr hs (by omega)
    · exact ih _ _ evs hrec

/-- Running the merge with the same collection on both sides (and equal
cursors) reaches the rule-5 match at every step and emits nothing. -/
theorem compareGo_same {B : List PotentialSecret} (hlines : AllLinesPresent B) :
    ∀ (fuel i : Nat) (x : Except CompareError (List ChangeEvent)),
      compareGo B B fuel i i = some x → x = .ok [] := by
  intro fuel
  induction fuel with
  | zero => intro i x h; simp [compareGo] at h
  | succ fuel ih =>
    intro i x h
    rcases compareGo_step h with
      ⟨_, _, hx⟩ | ⟨l, hsl, hl0, _⟩ | ⟨r, hsr, hr0, _⟩ |
      ⟨l, y, hsl, _, hreason, _, _⟩ | ⟨r, y, hsr, _, hreason, _, _⟩ |
      ⟨l, r, hsl, hsr, _, _, _, _, _, hrec⟩
    · exact hx
    · exact absurd hl0 (hlines l (List.getElem?_mem hsl))
    · exact absurd hr0 (hlines r (List.getElem?_mem hsr))
    · rcases hreason with hnone | ⟨r, hsr, _, hlr⟩
      · rw [hsl] at hnone
        exact absurd hnone (by simp)
      · rw [hsl] at hsr
        rw [Option.some.inj hsr] at hlr
        exact absurd hlr (keyLt_irrefl r)
    · rcases hreason with hnone | ⟨l, hsl, _, hrl⟩
      · rw [hsr] at hnone
        exact absurd hnone (by simp)
      · rw [hsr] at hsl
        rw [Option.some.inj hsl] at hrl
        exact absurd hrl (keyLt_irrefl l)
    · rw [hsl] at hsr
      rw [Option.some.inj hsr] at hrec
      exact ih _ _ hrec

theorem skipHashRun_eq_succ {secrets : List PotentialSecret} (hnd : NoConsecDupHash secrets)
    {i : Nat} {s : PotentialSecret} (h : secrets[i]? = some s) :
    skipHashRun secrets s.secret_hash i = i + 1 := by
  obtain ⟨hi, hv⟩ := List.getElem?_eq_some_iff.mp h
  unfold skipHashRun
  rw [List.drop_eq_getElem_cons hi, hv, List.takeWhile_cons_of_pos (by simp)]
  rcases h2 : secrets[i + 1]? with _ | s2
  · have hdrop : secrets.drop (i + 1) = [] := by
      rw [List.drop_eq_nil_iff]
      exact List.getElem?_eq_none_iff.mp h2
    simp [hdrop]
  · obtain ⟨hi2, hv2⟩ := List.getElem?_eq_some_iff.mp h2
    have hne : secrets[i].secret_hash ≠ secrets[i + 1].secret_hash :=
      List.chain'_iff_get.mp hnd i (by omega)
    have hne2 : s2.secret_hash ≠ s.secret_hash := by
      rw [← hv, ← hv2]
      exact fun hc => hne hc.symm
    rw [List.drop_eq_getElem_cons hi2]
    rw [List.takeWhile_cons_of_neg (by simp [hv2]; exact hne2)]
    simp

/-- If neither side has consecutive duplicate hashes, then any record with a
missing line number at or after either cursor forces the whole run to end in
`NoLineNumberError`. -/
theorem compareGo_error {ls rs : List PotentialSecret} (hndl : NoConsecDupHash ls)
    (hndr : NoConsecDupHash rs) :
    ∀ (fuel li ri : Nat) (x : Except CompareError (List ChangeEvent)),
      compareGo ls rs fuel li ri = some x →
      ((∃ j s, li ≤ j ∧ ls[j]? = some s ∧ s.line_number = 0) ∨
        (∃ j s, ri ≤ j ∧ rs[j]? = some s ∧ s.line_number = 0)) →
      x = .error .noLineNumber := by
  intro fuel
  induction fuel with
  | zero => intro li ri x h; simp [compareGo] at h
  | succ fuel ih =>
    intro li ri x h hw
    rcases compareGo_step h with
      ⟨hln, hrn, hx⟩ | ⟨l, _, _, hx⟩ | ⟨r, _, _, hx⟩ |
      ⟨l, y, hsl, hl0, _, hrec, hx⟩ | ⟨r, y, hsr, hr0, _, hrec, hx⟩ |
      ⟨l, r, hsl, hsr, hl0, hr0, _, _, _, hrec⟩
    · rcases hw with ⟨j, s, hj, hs, _⟩ | ⟨j, s, hj, hs, _⟩
      · rw [getElem?_none_mono hln hj] at hs
        exact absurd hs (by simp)
      · rw [getElem?_none_mono hrn hj] at hs
        exact absurd hs (by simp)
    · exact hx
    · exact hx
    · have hw' : (∃ j s, li + 1 ≤ j ∧ ls[j]? = some s ∧ s.line_number = 0) ∨
          (∃ j s, ri ≤ j ∧ rs[j]? = some s ∧ s.line_number = 0) := by
        rcases hw with ⟨j, s, hj, hs, hs0⟩ | hr'
        · rcases Nat.eq_or_lt_of_le hj with rfl | hlt
          · rw [hsl] at hs
            rw [Option.some.inj hs] at hl0
            exact absurd hs0 hl0
          · exact Or.inl ⟨j, s, by omega, hs, hs0⟩
        · exact Or.inr hr'
      rw [ih (li + 1) ri y hrec hw'] at hx
      rw [hx]
      rfl
    · have hw' : (∃ j s, li ≤ j ∧ ls[j]? = some s ∧ s.line_number = 0) ∨
          (∃ j s, ri + 1 ≤ j ∧ rs[j]? = some s ∧ s.line_number = 0) := by
        rcases hw with hl' | ⟨j, s, hj, hs, hs0⟩
        · exact Or.inl hl'
        · rcases Nat.eq_or_lt_of_le hj with rfl | hlt
          · rw [hsr] at hs
            rw [Option.some.inj hs] at hr0
            exact absurd hs0 hr0
          · exact Or.inr ⟨j, s, by omega, hs, hs0⟩
      rw [ih li (ri + 1) y hrec hw'] at hx
      rw [hx]
      rfl
    · rw [skipHashRun_eq_succ hndl hsl, skipHashRun_eq_succ hndr hsr] at hrec
      have hw' : (∃ j s, li + 1 ≤ j ∧ ls[j]? = some s ∧ s.line_number = 0) ∨
          (∃ j s, ri + 1 ≤ j ∧ rs[j]? = some s ∧ s.line_number = 0) := by
        rcases hw with ⟨j, s, hj, hs, hs0⟩ | ⟨j, s, hj, hs, hs0⟩
        · rcases Nat.eq_or_lt_of_le hj with rfl | hlt
          · rw [hsl] at hs
            rw [Option.some.inj hs] at hl0
            exact absurd hs0 hl0
          · exact Or.inl ⟨j, s, by omega, hs, hs0⟩
        · rcases Nat.eq_or_lt_of_le hj with rfl | hlt
          · rw [hsr] at hs
            rw [Option.some.inj hs] at hr0
            exact absurd hs0 hr0
          · exact Or.inr ⟨j, s, by omega, hs, hs0⟩
      exact ih (li + 1) (ri + 1) x hrec hw'

/-- Running the merge with the two collections (and cursors) exchanged yields
exactly the slot-swapped events, in the same order; errors are preserved. -/
theorem compareGo_symm (ls rs : List PotentialSecret) :
    ∀ (fuel li ri : Nat),
      compareGo rs ls fuel ri li =
        (compareGo ls rs fuel li ri).map (Except.map (List.map swapEvent)) := by
  intro fuel
  induction fuel with
  | zero => intro li ri; simp [compareGo]
  | succ fuel ih =>
    intro li ri
    rcases hl : ls[li]? with _ | l <;> rcases hr : rs[ri]? with _ | r
    · simp [compareGo, hl, hr, Except.map]
    · by_cases hr0 : r.line_number = 0
      · simp [compareGo, hl, hr, hr0, Except.map]
      · rcases hy : compareGo ls rs fuel li (ri + 1) with _ | y
        · simp [compareGo, hl, hr, hr0, ih, hy]
        · rcases y with err | evs <;>
            simp [compareGo, hl, hr, hr0, ih, hy, Except.map, swapEvent, leftEvent,
              rightEvent]
    · by_cases hl0 : l.line_number = 0
      · simp [compareGo, hl, hr, hl0, Except.map]
      · rcases hy : compareGo ls rs fuel (li + 1) ri with _ | y
        · simp [compareGo, hl, hr, hl0, ih, hy]
        · rcases y with err | evs <;>
            simp [compareGo, hl, hr, hl0, ih, hy, Except.map, swapEvent, leftEvent,
              rightEvent]
    · by_cases hl0 : l.line_number = 0
      · by_cases hr0 : r.line_number = 0
        · simp [compareGo, hl, hr, hl0, hr0, Except.map]
        · simp [compareGo, hl, hr, hl0, hr0, Except.map]
      by_cases hr0 : r.line_number = 0
      · simp [compareGo, hl, hr, hl0, hr0, Except.map]
      by_cases c1 : l.filename.data < r.filename.data
      · have nc : ¬r.filename.data < l.filename.data := lt_asymm c1
        rcases hy : compareGo ls rs fuel (li + 1) ri with _ | y
        · simp [compareGo, hl, hr, hl0, hr0, c1, nc, ih, hy]
        · rcases y with err | evs <;>
            simp [compareGo, hl, hr, hl0, hr0, c1, nc, ih, hy, Except.map, swapEvent,
              leftEvent, rightEvent]
      by_cases c2 : r.filename.data < l.filename.data
      · rcases hy : compareGo ls rs fuel li (ri + 1) with _ | y
        · simp [compareGo, hl, hr, hl0, hr0, c1, c2, ih, hy]
        · rcases y with err | evs <;>
            simp [compareGo, hl, hr, hl0, hr0, c1, c2, ih, hy, Except.map, swapEvent,
              leftEvent, rightEvent]
      by_cases c3 : l.line_number < r.line_number
      · have nc : ¬r.line_number < l.line_number := by omega
        rcases hy : compareGo ls rs fuel (li + 1) ri with _ | y
        · simp [compareGo, hl, hr, hl0, hr0, c1, c2, c3, nc, ih, hy]
        · rcases y with err | evs <;>
            simp [compareGo, hl, hr, hl0, hr0, c1, c2, c3, nc, ih, hy, Except.map,
              swapEvent, leftEvent, rightEvent]
      by_cases c4 : r.line_number < l.line_number
      · rcases hy : compareGo ls rs fuel li (ri + 1) with _ | y
        · simp [compareGo, hl, hr, hl0, hr0, c1, c2, c3, c4, ih, hy]
        · rcases y with err | evs <;>
            simp [compareGo, hl, hr, hl0, hr0, c1, c2, c3, c4, ih, hy, Except.map,
              swapEvent, leftEvent, rightEvent]
      by_cases c5 : l.secret_hash.data < r.secret_hash.data
      · have nc : ¬r.secret_hash.data < l.secret_hash.data := lt_asymm c5
        rcases hy : compareGo ls rs fuel (li + 1) ri with _ | y
        · simp [compareGo, hl, hr, hl0, hr0, c1, c2, c3, c4, c5, nc, ih, hy]
        · rcases y with err | evs <;>
            simp [compareGo, hl, hr, hl0, hr0, c1, c2, c3, c4, c5, nc, ih, hy, Except.map,
              swapEvent, leftEvent, rightEvent]
      by_cases c6 : r.secret_hash.data < l.secret_hash.data
      · rcases hy : compareGo ls rs fuel li (ri + 1) with _ | y
        · simp [compareGo, hl, hr, hl0, hr0, c1, c2, c3, c4, c5, c6, ih, hy]
        · rcases y with err | evs <;>
            simp [compareGo, hl, hr, hl0, hr0, c1, c2, c3, c4, c5, c6, ih, hy, Except.map,
              swapEvent, leftEvent, rightEvent]
      · rcases hy : compareGo ls rs fuel (skipHashRun ls l.secret_hash li)
            (skipHashRun rs r.secret_hash ri) with _ | y
        · simp [compareGo, hl, hr, hl0, hr0, c1, c2, c3, c4, c5, c6, ih, hy]
        · rcases y with err | evs <;>
            simp [compareGo, hl, hr, hl0, hr0, c1, c2, c3, c4, c5, c6, ih, hy, Except.map]

/-- The merge is the event rendering of its own consumption trace. -/
theorem traceGo_renders (ls rs : List PotentialSecret) :
    ∀ (fuel li ri : Nat),
      compareGo ls rs fuel li ri =
        (compareTraceGo ls rs fuel li ri).map
          (Except.map (·.flatMap (renderStep ls rs))) := by
  intro fuel
  induction fuel with
  | zero => intro li ri; simp [compareGo, compareTraceGo]
  | succ fuel ih =>
    intro li ri
    rcases hl : ls[li]? with _ | l <;> rcases hr : rs[ri]? with _ | r
    · simp [compareGo, compareTraceGo, hl, hr, Except.map]
    · by_cases hr0 : r.line_number = 0
      · simp [compareGo, compareTraceGo, hl, hr, hr0, Except.map]
      · rcases hy : compareTraceGo ls rs fuel li (ri + 1) with _ | y
        · simp [compareGo, compareTraceGo, hl, hr, hr0, ih, hy]
        · rcases y with err | steps <;>
            simp [compareGo, compareTraceGo, hl, hr, hr0, ih, hy, Except.map, renderStep]
    · by_cases hl0 : l.line_number = 0
      · simp [compareGo, compareTraceGo, hl, hr, hl0, Except.map]
      · rcases hy : compareTraceGo ls rs fuel (li + 1) ri with _ | y
        · simp [compareGo, compareTraceGo, hl, hr, hl0, ih, hy]
        · rcases y with err | steps <;>
            simp [compareGo, compareTraceGo, hl, hr, hl0, ih, hy, Except.map, renderStep]
    · by_cases hl0 : l.line_number = 0
      · simp [compareGo, compareTraceGo, hl, hr, hl0, Except.map]
      by_cases hr0 : r.line_number = 0
      · simp [compareGo, compareTraceGo, hl, hr, hl0, hr0, Except.map]
      by_cases c1 : l.filename.data < r.filename.data
      · rcases hy : compareTraceGo ls rs fuel (li + 1) ri with _ | y
        · simp [compareGo, compareTraceGo, hl, hr, hl0, hr0, c1, ih, hy]
        · rcases y with err | steps <;>
            simp [compareGo, compareTraceGo, hl, hr, hl0, hr0, c1, ih, hy, Except.map,
              renderStep]
      by_cases c2 : r.filename.data < l.filename.data
      · rcases hy : compareTraceGo ls rs fuel li (ri + 1) with _ | y
        · simp [compareGo, compareTraceGo, hl, hr, hl0, hr0, c1, c2, ih, hy]
        · rcases y with err | steps <;>
            simp [compareGo, compareTraceGo, hl, hr, hl0, hr0, c1, c2, ih, hy, Except.map,
              renderStep]
      by_cases c3 : l.line_number < r.line_number
      · rcases hy : compareTraceGo ls rs fuel (li + 1) ri with _ | y
        · simp [compareGo, compareTraceGo, hl, hr, hl0, hr0, c1, c2, c3, ih, hy]
        · rcases y with err | steps <;>
            simp [compareGo, compareTraceGo, hl, hr, hl0, hr0, c1, c2, c3, ih, hy,
              Except.map, renderStep]
      by_cases c4 : r.line_number < l.line_number
      · rcases hy : compareTraceGo ls rs fuel li (ri + 1) with _ | y
        · simp [compareGo, compareTraceGo, hl, hr, hl0, hr0, c1, c2, c3, c4, ih, hy]
        · rcases y with err | steps <;>
            simp [compareGo, compareTraceGo, hl, hr, hl0, hr0, c1, c2, c3, c4, ih, hy,
              Except.map, renderStep]
      by_cases c5 : l.secret_hash.data < r.secret_hash.data
      · rcases hy : compareTraceGo ls rs fuel (li + 1) ri with _ | y
        · simp [compareGo, compareTraceGo, hl, hr, hl0, hr0, c1, c2, c3, c4, c5, ih, hy]
        · rcases y with err | steps <;>
            simp [compareGo, compareTraceGo, hl, hr, hl0, hr0, c1, c2, c3, c4, c5, ih, hy,
              Except.map, renderStep]
      by_cases c6 : r.secret_hash.data < l.secret_hash.data
      · rcases hy : compareTraceGo ls rs fuel li (ri + 1) with _ | y
        · simp [compareGo, compareTraceGo, hl, hr, hl0, hr0, c1, c2, c3, c4, c5, c6, ih,
            hy]
        · rcases y with err | steps <;>
            simp [compareGo, compareTraceGo, hl, hr, hl0, hr0, c1, c2, c3, c4, c5, c6, ih,
              hy, Except.map, renderStep]
      · rcases hy : compareTraceGo ls rs fuel (skipHashRun ls l.secret_hash li)
            (skipHashRun rs r.secret_hash ri) with _ | y
        · simp [compareGo, compareTraceGo, hl, hr, hl0, hr0, c1, c2, c3, c4, c5, c6, ih,
            hy]
        · rcases y with err | steps <;>
            simp [compareGo, compareTraceGo, hl, hr, hl0, hr0, c1, c2, c3, c4, c5, c6, ih,
              hy, Except.map, renderStep]

/-- Coverage: on a successful run, the left positions consumed by the trace
are exactly `li, li + 1, …, ls.length - 1`, in order and each exactly once;
likewise on the right.  Every record is therefore either emitted exactly once
or consumed (exactly once) by a rule-5 match group. -/
theorem traceGo_coverage (ls rs : List PotentialSecret) :
    ∀ (fuel li ri : Nat) (steps : List DiffStep),
      compareTraceGo ls rs fuel li ri = some (.ok steps) →
      steps.flatMap stepLefts = List.range' li (ls.length - li) ∧
      steps.flatMap stepRights = List.range' ri (rs.length - ri) := by
  intro fuel
  induction fuel with
  | zero => intro li ri steps h; simp [compareTraceGo] at h
  | succ fuel ih =>
    intro li ri steps h
    rcases hl : ls[li]? with _ | l <;> rcases hr : rs[ri]? with _ | r <;>
      simp only [compareTraceGo, hl, hr] at h
    · have h1 : ls.length ≤ li := List.getElem?_eq_none_iff.mp hl
      have h2 : rs.length ≤ ri := List.getElem?_eq_none_iff.mp hr
      have hsteps : ([] : List DiffStep) = steps := by simpa using h
      rw [← hsteps]
      constructor <;> simp [Nat.sub_eq_zero_of_le, h1, h2]
    · by_cases hr0 : r.line_number = 0
      · rw [if_pos hr0] at h
        simp at h
      rw [if_neg hr0] at h
      rcases hy : compareTraceGo ls rs fuel li (ri + 1) with _ | y
      · rw [hy] at h; simp at h
      rw [hy] at h
      rcases y with err | steps0
      · simp [Except.map] at h
      have hsteps : steps = .emitRight ri :: steps0 := by
        have := Option.some.inj h
        simpa [Except.map] using this.symm
      subst hsteps
      obtain ⟨ihl, ihr⟩ := ih li (ri + 1) steps0 hy
      have hrlen : ri < rs.length := lt_length_of_getElem?_eq_some hr
      have h1 : ls.length ≤ li := List.getElem?_eq_none_iff.mp hl
      constructor
      · simp [List.flatMap_cons, stepRights, stepLefts, ihl]
      · simp only [List.flatMap_cons, stepRights, ihr]
        have e1 : rs.length - ri = (rs.length - (ri + 1)) + 1 := by omega
        rw [e1, List.range'_succ]
        rfl
    · by_cases hl0 : l.line_number = 0
      · rw [if_pos hl0] at h
        simp at h
      rw [if_neg hl0] at h
      rcases hy : compareTraceGo ls rs fuel (li + 1) ri with _ | y
      · rw [hy] at h; simp at h
      rw [hy] at h
      rcases y with err | steps0
      · simp [Except.map] at h
      have hsteps : steps = .emitLeft li :: steps0 := by
        have := Option.some.inj h
        simpa [Except.map] using this.symm
      subst hsteps
      obtain ⟨ihl, ihr⟩ := ih (li + 1) ri steps0 hy
      have hllen : li < ls.length := lt_length_of_getElem?_eq_some hl
      constructor
      · simp only [List.flatMap_cons, stepLefts, ihl]
        have e1 : ls.length - li = (ls.length - (li + 1)) + 1 := by omega
        rw [e1, List.range'_succ]
        rfl
      · simp [List.flatMap_cons, stepLefts, stepRights, ihr]
    · have hllen : li < ls.length := lt_length_of_getElem?_eq_some hl
      have hrlen : ri < rs.length := lt_length_of_getElem?_eq_some hr
      by_cases hl0 : l.line_number = 0
      · rw [if_pos hl0] at h
        simp at h
      rw [if_neg hl0] at h
      by_cases hr0 : r.line_number = 0
      · rw [if_pos hr0] at h
        simp at h
      rw [if_neg hr0] at h
      by_cases c1 : l.filename.data < r.filename.data
      · rw [if_pos c1] at h
        rcases hy : compareTraceGo ls rs fuel (li + 1) ri with _ | y
        · rw [hy] at h; simp at h
        rw [hy] at h
        rcases y with err | steps0
        · simp [Except.map] at h
        have hsteps : steps = .emitLeft li :: steps0 := by
          have := Option.some.inj h
          simpa [Except.map] using this.symm
        subst hsteps
        obtain ⟨ihl, ihr⟩ := ih (li + 1) ri steps0 hy
        constructor
        · simp only [List.flatMap_cons, stepLefts, ihl]
          have e1 : ls.length - li = (ls.length - (li + 1)) + 1 := by omega
          rw [e1, List.range'_succ]
          rfl
        · simp [List.flatMap_cons, stepLefts, stepRights, ihr]
      rw [if_neg c1] at h
      by_cases c2 : r.filename.data < l.filename.data
      · rw [if_pos c2] at h
        rcases hy : compareTraceGo ls rs fuel li (ri + 1) with _ | y
        · rw [hy] at h; simp at h
        rw [hy] at h
        rcases y with err | steps0
        · simp [Except.map] at h
        have hsteps : steps = .emitRight ri :: steps0 := by
          have := Option.some.inj h
          simpa [Except.map] using this.symm
        subst hsteps
        obtain ⟨ihl, ihr⟩ := ih li (ri + 1) steps0 hy
        constructor
        · simp [List.flatMap_cons, stepRights, stepLefts, ihl]
        · simp only [List.flatMap_cons, stepRights, ihr]
          have e1 : rs.length - ri = (rs.length - (ri + 1)) + 1 := by omega
          rw [e1, List.range'_succ]
          rfl
      rw [if_neg c2] at h
      by_cases c3 : l.line_number < r.line_number
      · rw [if_pos c3] at h
        rcases hy : compareTraceGo ls rs fuel (li + 1) ri with _ | y
        · rw [hy] at h; simp at h
        rw [hy] at h
        rcases y with err | steps0
        · simp [Except.map] at h
        have hsteps : steps = .emitLeft li :: steps0 := by
          have := Option.some.inj h
          simpa [Except.map] using this.symm
        subst hsteps
        obtain ⟨ihl, ihr⟩ := ih (li + 1) ri steps0 hy
        constructor
        · simp only [List.flatMap_cons, stepLefts, ihl]
          have e1 : ls.length - li = (ls.length - (li + 1)) + 1 := by omega
          rw [e1, List.range'_succ]
          rfl
        · simp [List.flatMap_cons, stepLefts, stepRights, ihr]
      rw [if_neg c3] at h
      by_cases c4 : r.line_number < l.line_number
      · rw [if_pos c4] at h
        rcases hy : compareTraceGo ls rs fuel li (ri + 1) with _ | y
        · rw [hy] at h; simp at h
        rw [hy] at h
        rcases y with err | steps0
        · simp [Except.map] at h
        have hsteps : steps = .emitRight ri :: steps0 := by
          have := Option.some.inj h
          simpa [Except.map] using this.symm
        subst hsteps
        obtain ⟨ihl, ihr⟩ := ih li (ri + 1) steps0 hy
        constructor
        · simp [List.flatMap_cons, stepRights, stepLefts, ihl]
        · simp only [List.flatMap_cons, stepRights, ihr]
          have e1 : rs.length - ri = (rs.length - (ri + 1)) + 1 := by omega
          rw [e1, List.range'_succ]
          rfl
      rw [if_neg c4] at h
      by_cases c5 : l.secret_hash.data < r.secret_hash.data
      · rw [if_pos c5] at h
        rcases hy : compareTraceGo ls rs fuel (li + 1) ri with _ | y
        · rw [hy] at h; simp at h
        rw [hy] at h
        rcases y with err | steps0
        · simp [Except.map] at h
        have hsteps : steps = .emitLeft li :: steps0 := by
          have := Option.some.inj h
          simpa [Except.map] using this.symm
        subst hsteps
        obtain ⟨ihl, ihr⟩ := ih (li + 1) ri steps0 hy
        constructor
        · simp only [List.flatMap_cons, stepLefts, ihl]
          have e1 : ls.length - li = (ls.length - (li + 1)) + 1 := by omega
          rw [e1, List.range'_succ]
          rfl
        · simp [List.flatMap_cons, stepLefts, stepRights, ihr]
      rw [if_neg c5] at h
      by_cases c6 : r.secret_hash.data < l.secret_hash.data
      · rw [if_pos c6] at h
        rcases hy : compareTraceGo ls rs fuel li (ri + 1) with _ | y
        · rw [hy] at h; simp at h
        rw [hy] at h
        rcases y with err | steps0
        · simp [Except.map] at h
        have hsteps : steps = .emitRight ri :: steps0 := by
          have := Option.some.inj h
          simpa [Except.map] using this.symm
        subst hsteps
        obtain ⟨ihl, ihr⟩ := ih li (ri + 1) steps0 hy
        constructor
        · simp [List.flatMap_cons, stepRights, stepLefts, ihl]
        · simp only [List.flatMap_cons, stepRights, ihr]
          have e1 : rs.length - ri = (rs.length - (ri + 1)) + 1 := by omega
          rw [e1, List.range'_succ]
          rfl
      rw [if_neg c6] at h
      rcases hy : compareTraceGo ls rs fuel (skipHashRun ls l.secret_hash li)
          (skipHashRun rs r.secret_hash ri) with _ | y
      · rw [hy] at h; simp at h
      rw [hy] at h
      rcases y with err | steps0
      · simp [Except.map] at h
      have hsteps : steps = .matchGroup li (skipHashRun ls l.secret_hash li) ri
          (skipHashRun rs r.secret_hash ri) :: steps0 := by
        have := Option.some.inj h
        simpa [Except.map] using this.symm
      subst hsteps
      obtain ⟨ihl, ihr⟩ := ih (skipHashRun ls l.secret_hash li)
        (skipHashRun rs r.secret_hash ri) steps0 hy
      have hbl1 : li < skipHashRun ls l.secret_hash li := lt_skipHashRun hl
      have hbl2 : skipHashRun ls l.secret_hash li ≤ ls.length :=
        skipHashRun_le_length ls l.secret_hash (Nat.le_of_lt hllen)
      have hbr1 : ri < skipHashRun rs r.secret_hash ri := lt_skipHashRun hr
      have hbr2 : skipHashRun rs r.secret_hash ri ≤ rs.length :=
        skipHashRun_le_length rs r.secret_hash (Nat.le_of_lt hrlen)
      constructor
      · simp only [List.flatMap_cons, stepLefts, ihl]
        have happ := List.range'_append_1 li (skipHashRun ls l.secret_hash li - li)
          (ls.length - skipHashRun ls l.secret_hash li)
        rw [show li + (skipHashRun ls l.secret_hash li - li) =
            skipHashRun ls l.secret_hash li from by omega] at happ
        rw [show (ls.length - skipHashRun ls l.secret_hash li) +
            (skipHashRun ls l.secret_hash li - li) = ls.length - li from by omega]
          at happ
        exact happ
      · simp only [List.flatMap_cons, stepRights, ihr]
        have happ := List.range'_append_1 ri (skipHashRun rs r.secret_hash ri - ri)
          (rs.length - skipHashRun rs r.secret_hash ri)
        rw [show ri + (skipHashRun rs r.secret_hash ri - ri) =
            skipHashRun rs r.secret_hash ri from by omega] at happ
        rw [show (rs.length - skipHashRun rs r.secret_hash ri) +
            (skipHashRun rs r.secret_hash ri - ri) = rs.length - ri from by omega]
          at happ
        exact happ

/-! ## Claim theorems for the diff engine -/
/-- Claim C1: for ordered inputs, the merge partitions the records of the two
collections: the trace consumes every left position `0, …, A.length - 1` and
every right position `0, …, B.length - 1` exactly once (in order), each
position either as an emission — rendered as exactly one change event carrying
that record — or inside a rule-5 match group — rendered as zero events; the
emitted event list of `_compare_baselines` is exactly the rendering of that
trace. -/
theorem C1_total_coverage {A B : List PotentialSecret} {steps : List DiffStep}
    (hA : SortedByKey A) (hB : SortedByKey B)
    (h : compare_baselines_trace A B = .ok steps) :
    compare_baselines_diff A B = .ok (steps.flatMap (renderStep A B)) ∧
    steps.flatMap stepLefts = List.range' 0 A.length ∧
    steps.flatMap stepRights = List.range' 0 B.length := by
  rcases hx : compareTraceGo A B (A.length + B.length + 1) 0 0 with _ | x
  · obtain ⟨y, hy⟩ := compareGo_total A B (A.length + B.length + 1) 0 0 (by omega)
    have hren := traceGo_renders A B (A.length + B.length + 1) 0 0
    rw [hx, hy] at hren
    simp at hren
  · rw [compare_baselines_trace, hx] at h
    simp at h
    subst h
    have hgo := traceGo_renders A B (A.length + B.length + 1) 0 0
    rw [hx] at hgo
    have hdiff : compare_baselines_diff A B = .ok (steps.flatMap (renderStep A B)) := by
      rw [compare_baselines_diff, hgo]
      simp [Except.map]
    obtain ⟨hL, hR⟩ := traceGo_coverage A B _ 0 0 steps hx
    refine ⟨hdiff, ?_, ?_⟩
    · simpa using hL
    · simpa using hR

theorem C1_total_coverage_witness :
    compare_baselines_diff [⟨"f.py", 10, "h1"⟩]
        [⟨"f.py", 10, "h1"⟩, ⟨"g.py", 2, "h2"⟩] =
      .ok ([DiffStep.matchGroup 0 1 0 1, DiffStep.emitRight 1].flatMap
        (renderStep [⟨"f.py", 10, "h1"⟩] [⟨"f.py", 10, "h1"⟩, ⟨"g.py", 2, "h2"⟩])) ∧
    ([DiffStep.matchGroup 0 1 0 1, DiffStep.emitRight 1].flatMap stepLefts =
      List.range' 0 1) ∧
    ([DiffStep.matchGroup 0 1 0 1, DiffStep.emitRight 1].flatMap stepRights =
      List.range' 0 2) :=
  C1_total_coverage (by decide) (by decide) (by decide)

/-- Claim C4: with both inputs satisfying the ordering precondition, the
emitted event sequence is non-decreasing under the `(filename, line_number,
secret_hash)` key of each event's present record, across both sides
combined. -/
theorem C4_output_ordered {A B : List PotentialSecret} {evs : List ChangeEvent}
    (hA : SortedByKey A) (hB : SortedByKey B)
    (h : compare_baselines_diff A B = .ok evs) :
    evs.Pairwise (fun a b => keyLe (eventSecret a) (eventSecret b)) := by
  rcases hx : compareGo A B (A.length + B.length + 1) 0 0 with _ | x
  · rw [compare_baselines_diff, hx] at h
    have : ([] : List ChangeEvent) = evs := by simpa using h
    rw [← this]
    exact List.Pairwise.nil
  · rw [compare_baselines_diff, hx] at h
    simp at h
    subst h
    exact compareGo_sorted hA hB _ 0 0 evs hx

theorem C4_output_ordered_witness :
    ([⟨"a.py", some ⟨"a.py", 1, "h1"⟩, none⟩,
      (⟨"b.py", none, some ⟨"b.py", 1, "h1"⟩⟩ : ChangeEvent)].Pairwise
        (fun a b => keyLe (eventSecret a) (eventSecret b))) :=
  C4_output_ordered (A := [⟨"a.py", 1, "h1"⟩]) (B := [⟨"b.py", 1, "h1"⟩])
    (by decide) (by decide) (by decide)

/-- Claim C5: diffing in the opposite order produces exactly the slot-swapped
events, in the same order: every left-present/right-absent event of
`diff(A, B)` corresponds to the right-present/left-absent event of
`diff(B, A)` for the same record, and vice versa, with no event outside this
correspondence. -/
theorem C5_symmetry {A B : List PotentialSecret}
    (h1 : SortedByKey A) (h2 : SortedByKey B)
    (h3 : AllLinesPresent A) (h4 : AllLinesPresent B) :
    compare_baselines_diff B A =
      Except.map (List.map swapEvent) (compare_baselines_diff A B) := by
  rw [compare_baselines_diff, compare_baselines_diff]
  have hsym := compareGo_symm A B (A.length + B.length + 1) 0 0
  rw [show B.length + A.length + 1 = A.length + B.length + 1 from by omega, hsym]
  rcases hx : compareGo A B (A.length + B.length + 1) 0 0 with _ | x
  · simp [Except.map]
  · simp

theorem C5_symmetry_witness :
    compare_baselines_diff [⟨"b.py", 1, "h1"⟩] [⟨"a.py", 1, "h1"⟩] =
      Except.map (List.map swapEvent)
        (compare_baselines_diff [⟨"a.py", 1, "h1"⟩] [⟨"b.py", 1, "h1"⟩]) :=
  C5_symmetry (by decide) (by decide) (by decide) (by decide)

/-- Claim C6: diffing a valid baseline against itself emits no events. -/
theorem C6_diff_identical_is_empty {B : List PotentialSecret}
    (hsorted : SortedByKey B) (hlines : AllLinesPresent B) :
    compare_baselines_diff B B = .ok [] := by
  rcases hx : compareGo B B (B.length + B.length + 1) 0 0 with _ | x
  · rw [compare_baselines_diff, hx]
    rfl
  · rw [compare_baselines_diff, hx]
    simp only [Option.getD_some]
    exact compareGo_same hlines _ 0 x hx

theorem C6_diff_identical_is_empty_witness :
    compare_baselines_diff [⟨"f.py", 10, "h1"⟩] [⟨"f.py", 10, "h1"⟩] = .ok [] :=
  C6_diff_identical_is_empty (by decide) (by decide)

/-- Claim C7: every emitted change event has exactly one of its two record
slots absent — never both present and never both absent, for any inputs. -/
theorem C7_exactly_one_side_absent {A B : List PotentialSecret}
    {evs : List ChangeEvent} (h : compare_baselines_diff A B = .ok evs) :
    ∀ e ∈ evs,
      (∃ s, e.left_secret = some s ∧ e.right_secret = none) ∨
      (∃ s, e.left_secret = none ∧ e.right_secret = some s) := by
  intro e he
  rcases hx : compareGo A B (A.length + B.length + 1) 0 0 with _ | x
  · rw [compare_baselines_diff, hx] at h
    have : ([] : List ChangeEvent) = evs := by simpa using h
    rw [← this] at he
    simp at he
  · rw [compare_baselines_diff, hx] at h
    simp at h
    subst h
    rcases compareGo_provenance A B _ 0 0 evs hx e he with ⟨_, s, _, _, rfl⟩ | ⟨_, s, _, _, rfl⟩
    · exact Or.inl ⟨s, rfl, rfl⟩
    · exact Or.inr ⟨s, rfl, rfl⟩

theorem C7_exactly_one_side_absent_witness :
    (∃ s, (⟨"f.py", some ⟨"f.py", 10, "h1"⟩, none⟩ : ChangeEvent).left_secret = some s ∧
      (⟨"f.py", some ⟨"f.py", 10, "h1"⟩, none⟩ : ChangeEvent).right_secret = none) ∨
    (∃ s, (⟨"f.py", some ⟨"f.py", 10, "h1"⟩, none⟩ : ChangeEvent).left_secret = none ∧
      (⟨"f.py", some ⟨"f.py", 10, "h1"⟩, none⟩ : ChangeEvent).right_secret = some s) :=
  @C7_exactly_one_side_absent [⟨"f.py", 10, "h1"⟩] []
    [⟨"f.py", some ⟨"f.py", 10, "h1"⟩, none⟩] (by decide) _ (by decide)

/-- Claim C3, counterexample: the claim says any record lacking a
`line_number` makes the comparison raise `NoLineNumberError`.  But the rule-5
advance (lines 140-152) skips consecutive records sharing the matched hash
without checking their line numbers: here `("b.py", 0, "h1")` lacks a line
number, yet the comparison succeeds with zero events and `compare_baselines`
reports no error. -/
theorem C3_counterexample :
    (∃ s ∈ [(⟨"a.py", 1, "h1"⟩ : PotentialSecret), ⟨"b.py", 0, "h1"⟩],
      s.line_number = 0) ∧
    SortedByKey [⟨"a.py", 1, "h1"⟩, ⟨"b.py", 0, "h1"⟩] ∧
    compare_baselines_outcome [⟨"a.py", 1, "h1"⟩, ⟨"b.py", 0, "h1"⟩]
      [⟨"a.py", 1, "h1"⟩] = .reviewed [] := by
  refine ⟨⟨⟨"b.py", 0, "h1"⟩, by decide, rfl⟩, by decide, by decide⟩

/-- Claim C3, amended: whenever a record lacking a `line_number` is examined
at a cursor head — which is every such record provided no rule-5 hash run can
swallow it, i.e. when consecutive records never share a `secret_hash` — the
whole comparison ends in `NoLineNumberError`: `_compare_baselines` delivers no
change events and `compare_baselines` reports the single top-level error. -/
theorem C3_no_line_number_aborts {A B : List PotentialSecret}
    (hndA : NoConsecDupHash A) (hndB : NoConsecDupHash B)
    (hmiss : (∃ s ∈ A, s.line_number = 0) ∨ (∃ s ∈ B, s.line_number = 0)) :
    compare_baselines_diff A B = .error .noLineNumber ∧
    compare_baselines_outcome A B = .errorReported := by
  obtain ⟨x, hx⟩ := compareGo_total A B (A.length + B.length + 1) 0 0 (by omega)
  have hw : (∃ j s, 0 ≤ j ∧ A[j]? = some s ∧ s.line_number = 0) ∨
      (∃ j s, 0 ≤ j ∧ B[j]? = some s ∧ s.line_number = 0) := by
    rcases hmiss with ⟨s, hsmem, hs0⟩ | ⟨s, hsmem, hs0⟩
    · obtain ⟨j, hj⟩ := List.mem_iff_getElem?.mp hsmem
      exact Or.inl ⟨j, s, Nat.zero_le _, hj, hs0⟩
    · obtain ⟨j, hj⟩ := List.mem_iff_getElem?.mp hsmem
      exact Or.inr ⟨j, s, Nat.zero_le _, hj, hs0⟩
  have herr := compareGo_error hndA hndB _ 0 0 x hx hw
  have hdiff : compare_baselines_diff A B = .error .noLineNumber := by
    rw [compare_baselines_diff, hx, herr]
    rfl
  refine ⟨hdiff, ?_⟩
  rw [compare_baselines_outcome, hdiff]

theorem C3_no_line_number_aborts_witness :
    compare_baselines_diff [⟨"a.py", 0, "h1"⟩] [] = .error .noLineNumber ∧
    compare_baselines_outcome [⟨"a.py", 0, "h1"⟩] [] = .errorReported :=
  C3_no_line_number_aborts (List.chain'_singleton _) List.chain'_nil
    (Or.inl ⟨⟨"a.py", 0, "h1"⟩, by decide, rfl⟩)

/-- Claim C8: when value resolution raises
`SecretNotFoundOnSpecifiedLineError`, the step substitutes the error context
(same position, total and record, no snippet) for the normal snippet context,
still collects a decision with exactly the options of the normal path (the
iterator's can-step-back flag, no secret prompt), and maps the decision to the
same session action as the normal path; in particular the session aborts only
on an explicit QUIT, never because of the failure. -/
theorem C8_resolution_failure_recoverable (ev : ChangeEvent) (index total : Nat)
    (canStepBack : Bool) (snippet : List String) (decision : UserDecision)
    (value : String) :
    (displayStep ev index total canStepBack (.error ()) snippet decision).shown =
      .errorContext (index + 1) total (eventSecret ev) ∧
    (displayStep ev index total canStepBack (.error ()) snippet decision).prompt =
      ⟨canStepBack, false⟩ ∧
    (displayStep ev index total canStepBack (.error ()) snippet decision).prompt =
      (displayStep ev index total canStepBack (.ok value) snippet decision).prompt ∧
    (displayStep ev index total canStepBack (.error ()) snippet decision).action =
      (displayStep ev index total canStepBack (.ok value) snippet decision).action ∧
    ((displayStep ev index total canStepBack (.error ()) snippet decision).action =
        .quitSession ↔ decision = .quit) := by
  refine ⟨rfl, rfl, rfl, rfl, ?_⟩
  cases decision <;> simp [displayStep]

theorem call_method_self_aware {m : BoundMethod} {ivs : List String}
    (h : m.func.attrs.injectable_variables = some ivs)
    (kwargs : List (String × PyValue)) :
    call_function_with_arguments (.method m) kwargs =
      .ok ⟨.method m, kwargs.filter (fun kv => ivs.contains kv.1)⟩ := by
  simp [call_function_with_arguments, isSelfAware, hasInjectableAttr,
    PyCallable.injectableOf, PyCallable.isMethod, h]

theorem make_method_fresh {m : BoundMethod}
    (h : m.func.attrs.injectable_variables = none) :
    make_function_self_aware (.method m) =
      .function { m.func with attrs :=
        { injectable_variables := some (get_injectable_variables (.method m)),
          path := some (m.klass ++ "." ++ m.func.name) } } := by
  simp [make_function_self_aware, hasInjectableAttr, PyCallable.injectableOf, h]

theorem call_method_fresh {m : BoundMethod} {p0 : String} {ps : List String}
    (h : m.func.attrs.injectable_variables = none)
    (hvars : get_injectable_variables (.method m) = p0 :: ps)
    (kwargs : List (String × PyValue)) (hp0 : ∀ kv ∈ kwargs, kv.1 ≠ p0) :
    call_function_with_arguments (.method m) kwargs =
      .ok ⟨.function { m.func with attrs :=
          { injectable_variables := some (p0 :: ps),
            path := some (m.klass ++ "." ++ m.func.name) } },
        kwargs.filter (fun kv => (p0 :: ps).contains kv.1) ++ [(p0, m.selfVal)]⟩ := by
  have hany : kwargs.any (fun kv => kv.1 = p0) = false := by
    simp only [List.any_eq_false, decide_eq_true_eq]
    exact hp0
  simp [call_function_with_arguments, isSelfAware, hasInjectableAttr,
    PyCallable.injectableOf, PyCallable.isMethod, h, make_method_fresh h, hvars,
    dictInsert, hany, List.filter_append]

/-- Claim C2, code bug: the non-method branch of `make_function_self_aware`
(lines 57-59) sets only `path` and never `injectable_variables`, so a plain
function that is not yet self-aware — the spec's scenario: a decision function
declaring only `secret`, with pool entries `secret` and `header` — hits
`function.injectable_variables` at line 35 and raises `AttributeError`
instead of being invoked with `secret=X`. -/
theorem C2_plain_function_attribute_error :
    call_function_with_arguments
      (.function ⟨"decision", ⟨["secret"], 1, 0⟩, ⟨none, none⟩⟩)
      [("secret", .str "X"), ("header", .str "Y")] = .error .attributeError := by
  decide

/-- Claim C9: (a) invoking a bound method whose self-aware form is the
underlying unbound class function injects the instance as the value of the
first declared parameter — the name taken from introspection, not hardcoded as
`self` — even though it is absent from the caller's pool; (b) when the given
callable is already self-aware and still a bound method, no instance injection
is performed: the method itself is invoked with only the caller's matching
pool entries. -/
theorem C9_bound_method_self_injection :
    (∀ (m : BoundMethod) (p0 : String) (ps : List String)
        (kwargs : List (String × PyValue)),
      m.func.attrs.injectable_variables = none →
      get_injectable_variables (.method m) = p0 :: ps →
      (∀ kv ∈ kwargs, kv.1 ≠ p0) →
      call_function_with_arguments (.method m) kwargs =
        .ok ⟨.function (classFunctionAfter (.method m)),
          kwargs.filter (fun kv => (p0 :: ps).contains kv.1) ++ [(p0, m.selfVal)]⟩) ∧
    (∀ (m : BoundMethod) (ivs : List String) (kwargs : List (String × PyValue)),
      m.func.attrs.injectable_variables = some ivs →
      call_function_with_arguments (.method m) kwargs =
        .ok ⟨.method m, kwargs.filter (fun kv => ivs.contains kv.1)⟩) := by
  constructor
  · intro m p0 ps kwargs h hvars hp0
    rw [call_method_fresh h hvars kwargs hp0]
    simp [classFunctionAfter, make_method_fresh h, hvars]
  · intro m ivs kwargs h
    exact call_method_self_aware h kwargs

theorem C9_bound_method_self_injection_witness :
    call_function_with_arguments
        (.method ⟨"ClassM", .inst 7,
          ⟨"decide", ⟨["this", "secret"], 2, 0⟩, ⟨none, none⟩⟩⟩)
        [("secret", .str "X")] =
      .ok ⟨.function (classFunctionAfter (.method ⟨"ClassM", .inst 7,
            ⟨"decide", ⟨["this", "secret"], 2, 0⟩, ⟨none, none⟩⟩⟩)),
        [("secret", PyValue.str "X")].filter
            (fun kv => ("this" :: ["secret"]).contains kv.1) ++
          [("this", .inst 7)]⟩ ∧
    call_function_with_arguments
        (.method ⟨"ClassM", .inst 8,
          ⟨"decide", ⟨["self", "secret"], 2, 0⟩,
            ⟨some ["self", "secret"], some "ClassM.decide"⟩⟩⟩)
        [("secret", .str "X"), ("header", .str "Y")] =
      .ok ⟨.method ⟨"ClassM", .inst 8,
          ⟨"decide", ⟨["self", "secret"], 2, 0⟩,
            ⟨some ["self", "secret"], some "ClassM.decide"⟩⟩⟩,
        [("secret", PyValue.str "X"), ("header", PyValue.str "Y")].filter
          (fun kv => (["self", "secret"] : List String).contains kv.1)⟩ :=
  ⟨C9_bound_method_self_injection.1 _ "this" ["secret"] _ rfl rfl (by decide),
    C9_bound_method_self_injection.2 _ ["self", "secret"] _ rfl⟩

/-- Claim C10: the first invocation through a bound method of a class whose
function does not yet carry `injectable_variables` mutates exactly that class
function: the declared-parameter set and the path string are attached, name
and code untouched; afterwards any bound method built on the mutated class
function — any instance — is already self-aware: `make_function_self_aware`
returns it unchanged (no re-introspection) and invocation reuses the cached
set. -/
theorem C10_first_call_caches_on_class :
    (∀ m : BoundMethod, m.func.attrs.injectable_variables = none →
      classFunctionAfter (.method m) =
        { m.func with attrs :=
          { injectable_variables := some (get_injectable_variables (.method m)),
            path := some (m.klass ++ "." ++ m.func.name) } }) ∧
    (∀ m m2 : BoundMethod, m.func.attrs.injectable_variables = none →
      m2.func = classFunctionAfter (.method m) →
      make_function_self_aware (.method m2) = .method m2 ∧
      ∀ kwargs : List (String × PyValue),
        call_function_with_arguments (.method m2) kwargs =
          .ok ⟨.method m2,
            kwargs.filter
              (fun kv => (get_injectable_variables (.method m)).contains kv.1)⟩) := by
  have hcf : ∀ m : BoundMethod, m.func.attrs.injectable_variables = none →
      classFunctionAfter (.method m) =
        { m.func with attrs :=
          { injectable_variables := some (get_injectable_variables (.method m)),
            path := some (m.klass ++ "." ++ m.func.name) } } := by
    intro m h
    simp [classFunctionAfter, make_method_fresh h]
  refine ⟨hcf, ?_⟩
  intro m m2 h h2
  rw [hcf m h] at h2
  have hiv : m2.func.attrs.injectable_variables =
      some (get_injectable_variables (.method m)) := by
    rw [h2]
  constructor
  · simp [make_function_self_aware, hasInjectableAttr, PyCallable.injectableOf, hiv]
  · intro kwargs
    exact call_method_self_aware hiv kwargs

theorem C10_first_call_caches_on_class_witness :
    classFunctionAfter (.method ⟨"ClassM", .inst 7,
        ⟨"decide", ⟨["this", "secret"], 2, 0⟩, ⟨none, none⟩⟩⟩) =
      { name := "decide", code := ⟨["this", "secret"], 2, 0⟩,
        attrs :=
          { injectable_variables := some (get_injectable_variables
              (.method ⟨"ClassM", .inst 7,
                ⟨"decide", ⟨["this", "secret"], 2, 0⟩, ⟨none, none⟩⟩⟩)),
            path := some ("ClassM" ++ "." ++ "decide") } } ∧
    (make_function_self_aware (.method ⟨"ClassM", .inst 9,
        classFunctionAfter (.method ⟨"ClassM", .inst 7,
          ⟨"decide", ⟨["this", "secret"], 2, 0⟩, ⟨none, none⟩⟩⟩)⟩) =
      .method ⟨"ClassM", .inst 9,
        classFunctionAfter (.method ⟨"ClassM", .inst 7,
          ⟨"decide", ⟨["this", "secret"], 2, 0⟩, ⟨none, none⟩⟩⟩)⟩ ∧
      ∀ kwargs : List (String × PyValue),
        call_function_with_arguments (.method ⟨"ClassM", .inst 9,
            classFunctionAfter (.method ⟨"ClassM", .inst 7,
              ⟨"decide", ⟨["this", "secret"], 2, 0⟩, ⟨none, none⟩⟩⟩)⟩) kwargs =
          .ok ⟨.method ⟨"ClassM", .inst 9,
              classFunctionAfter (.method ⟨"ClassM", .inst 7,
                ⟨"decide", ⟨["this", "secret"], 2, 0⟩, ⟨none, none⟩⟩⟩)⟩,
            kwargs.filter
              (fun kv => (get_injectable_variables
                (.method ⟨"ClassM", .inst 7,
                  ⟨"decide", ⟨["this", "secret"], 2, 0⟩,
                    ⟨none, none⟩⟩⟩)).contains kv.1)⟩) :=
  ⟨C10_first_call_caches_on_class.1 _ rfl,
    C10_first_call_caches_on_class.2 _ _ rfl rfl⟩

end DetectSecrets
